import Mathlib

/-
Verification of the GrayImage transform engine (translate, in-place translate,
threshold, isBinary, PGM loading, flood-fill background) against its
natural-language specification.  The definitions below are a shallow embedding
of the C++ source: the pixel buffer is a row-major list of naturals, machine
integers become Int/Nat, assertion failures and other fallible paths become
Option results.
-/

/-- A grayscale image: height, width, and a row-major pixel buffer
(mirrors the fields height_, width_, data_ of class GrayImage). -/
structure Image where
  height : Nat
  width : Nat
  data : List Nat
deriving DecidableEq, Repr

/-- The well-formedness invariant every C++ GrayImage maintains:
the buffer has exactly height*width entries and each sample fits in 8 bits. -/
def Image.wf (img : Image) : Prop :=
  img.data.length = img.height * img.width ∧ ∀ p ∈ img.data, p ≤ 255

instance (img : Image) : Decidable img.wf := by
  unfold Image.wf
  infer_instance

/-- Pixel read at (y, x): operator()(y, x) returns data_[y*width_+x]
(in-range in every use the transforms make of it; out of range reads 0). -/
def Image.get (img : Image) (y x : Nat) : Nat :=
  img.data.getD (y * img.width + x) 0

/-- Pixel write at (y, x): operator()(y, x) = v on the row-major buffer. -/
def Image.set (img : Image) (y x : Nat) (v : Nat) : Image :=
  { img with data := img.data.set (y * img.width + x) v }

/-- The default constructor GrayImage(): an empty 0 x 0 image. -/
def emptyImage : Image := ⟨0, 0, []⟩

/-- GrayImage(height, width): image of the given size filled with black pixels;
the constructor asserts height > 0 and width > 0, modelled as none on failure. -/
def mkImage (height width : Nat) : Option Image :=
  if 0 < height ∧ 0 < width then
    some ⟨height, width, List.replicate (height * width) 0⟩
  else none

/-- Translation of one character of the literal constructor:
data_[i] = data[i] == 'o' ? 0 : 255. -/
def charToPixel (c : Char) : Nat := if c = 'o' then 0 else 255

/-- GrayImage(height, width, data): binary image from a flat literal string;
the constructor asserts height > 0, width > 0 and matching length. -/
def mkImageLit (height width : Nat) (data : List Char) : Option Image :=
  if 0 < height ∧ 0 < width ∧ data.length = height * width then
    some ⟨height, width, data.map charToPixel⟩
  else none

/-- Inner loop of translate: for cur_width over the given index list,
cur_x = cur_width + dx; when 0 <= cur_x < width the pixel
image(cur_height, cur_width) is written to result(cur_height+dy, cur_x). -/
def translateRow (image : Image) (dy dx : Int) (cur_height : Nat) :
    List Nat → Image → Image
  | [], result => result
  | cur_width :: rest, result =>
      translateRow image dy dx cur_height rest
        (if 0 ≤ (cur_width : Int) + dx ∧ (cur_width : Int) + dx < (image.width : Int) then
          result.set ((cur_height : Int) + dy).toNat ((cur_width : Int) + dx).toNat
            (image.get cur_height cur_width)
        else result)

/-- Outer loop of translate: for cur_height over the given index list,
cur_y = cur_height + dy; rows whose cur_y falls inside the image are copied. -/
def translateLoop (image : Image) (dy dx : Int) :
    List Nat → Image → Image
  | [], result => result
  | cur_height :: rest, result =>
      translateLoop image dy dx rest
        (if 0 ≤ (cur_height : Int) + dy ∧ (cur_height : Int) + dy < (image.height : Int) then
          translateRow image dy dx cur_height (List.range image.width) result
        else result)

/-- translate(image, dy, dx): copy-producing translation.  Fast path for
(0,0); all-black result when the shift meets or exceeds the extent;
otherwise an all-black result image is filled by the double loop.
The result constructor asserts positive dimensions (none on failure). -/
def translateCopy (image : Image) (dy dx : Int) : Option Image :=
  if dy = 0 ∧ dx = 0 then some image
  else
    if image.width ≤ dx.natAbs ∨ image.height ≤ dy.natAbs then
      mkImageLit image.height image.width
        (List.replicate (image.width * image.height) 'o')
    else
      match mkImageLit image.height image.width
        (List.replicate (image.width * image.height) 'o') with
      | none => none
      | some result =>
          some (translateLoop image dy dx (List.range image.height) result)

/-- doTranslateInplace: single pass over the buffer in iteration order.
dest is the distance from the begin iterator, dest_y = dest / width_,
source = dest + abs(move_offset), source_y = source / width_; the destination
is blackened when abs(dest_y - source_y) > abs(dy) or source is out of the
buffer, otherwise the byte at source (of the current buffer state) is copied. -/
def doTranslateInplace (move_offset dy width : Int) (buf : List Nat) : List Nat :=
  (List.range buf.length).foldl
    (fun (b : List Nat) (dest : Nat) =>
      if ((dest : Int) / width - ((dest : Int) + (move_offset.natAbs : Int)) / width).natAbs > dy.natAbs
          ∨ ((dest : Int) + (move_offset.natAbs : Int)) < 0
          ∨ (b.length : Int) ≤ (dest : Int) + (move_offset.natAbs : Int) then
        b.set dest 0
      else
        b.set dest (b.getD ((dest : Int) + (move_offset.natAbs : Int)).toNat 0))
    buf

/-- translateInplace(dy, dx): move_offset = dy*width_ + dx; a negative offset
walks the buffer forwards, a positive one walks it in reverse (rbegin/rend,
modelled by reversing the buffer around the pass), offset zero is a no-op. -/
def Image.translateInplace (img : Image) (dy dx : Int) : Image :=
  if dy * (img.width : Int) + dx < 0 then
    { img with data := doTranslateInplace (dy * (img.width : Int) + dx) dy (img.width : Int) img.data }
  else if 0 < dy * (img.width : Int) + dx then
    { img with data :=
        (doTranslateInplace (dy * (img.width : Int) + dx) dy (img.width : Int) img.data.reverse).reverse }
  else img

/-- isBinary(image): false for an image with zero height or width, otherwise
true iff no pixel differs from both 0 and 255. -/
def isBinary (image : Image) : Bool :=
  if image.height = 0 ∨ image.width = 0 then false
  else
    (List.range image.height).all fun cur_height =>
      (List.range image.width).all fun cur_width =>
        !(image.get cur_height cur_width != 0 && image.get cur_height cur_width != 255)

/-- Inner loop of threshold: each pixel of the row becomes 0 when strictly
below thr, else 255. -/
def thresholdRow (image : Image) (thr : Nat) (cur_height : Nat) :
    List Nat → Image → Image
  | [], result => result
  | cur_width :: rest, result =>
      thresholdRow image thr cur_height rest
        (if image.get cur_height cur_width < thr then
          result.set cur_height cur_width 0
        else
          result.set cur_height cur_width 255)

/-- Outer loop of threshold over the rows. -/
def thresholdLoop (image : Image) (thr : Nat) :
    List Nat → Image → Image
  | [], result => result
  | cur_height :: rest, result =>
      thresholdLoop image thr rest
        (thresholdRow image thr cur_height (List.range image.width) result)

/-- threshold(image, thr): builds GrayImage result(height, width) (asserting
constructor, none on failure) and classifies every pixel. -/
def threshold (image : Image) (thr : Nat) : Option Image :=
  match mkImage image.height image.width with
  | none => none
  | some result => some (thresholdLoop image thr (List.range image.height) result)

/-- The 3x3 test image "xoxxoxxxx" used throughout the source's test cases. -/
def testImg : Image := ⟨3, 3, [255, 0, 255, 255, 0, 255, 255, 255, 255]⟩

/-- A small 2x2 image containing genuine gray values (used as a witness input). -/
def grayImg : Image := ⟨2, 2, [0, 255, 128, 7]⟩

/-- A PGM file as seen by loadFromPGM after lexing: the first whitespace
token (the magic), the three header integers extracted by operator>>, and the
raw pixel bytes available after the single separator byte.  A missing file
(cannot be opened) is modelled as the surrounding Option being none. -/
structure PGMFile where
  magic : String
  width : Int
  height : Int
  maxValue : Int
  pixels : List Nat
deriving DecidableEq, Repr

/-- resize(height, width): asserts positive dimensions (none on failure), then
replaces the buffer with a zeroed one of the new size (content-losing). -/
def Image.resize (_img : Image) (height width : Int) : Option Image :=
  if 0 < height ∧ 0 < width then
    some ⟨height.toNat, width.toNat, List.replicate (height.toNat * width.toNat) 0⟩
  else none

/-- One ifstream read of n bytes into the freshly zeroed buffer of r: the
bytes that arrived overwrite the front, the remainder of the buffer stays. -/
def pgmReadData (r : Image) (pixels : List Nat) (n : Nat) : List Nat :=
  pixels.take n ++ r.data.drop (pixels.take n).length

/-- loadFromPGM: checks magic, positive width and height and max value 255 in
order, returning -1 with the image untouched on the first violation; then
resizes the image (asserting constructor) and reads width*height pixel bytes
into the zeroed buffer, returning -1 if the stream ran short (the buffer keeps
the bytes that did arrive) and 0 on success. -/
def loadFromPGM (img : Image) (file : Option PGMFile) : Option (Int × Image) :=
  match file with
  | none => some (-1, img)
  | some f =>
      if f.magic ≠ "P5" then some (-1, img)
      else if f.width ≤ 0 then some (-1, img)
      else if f.height ≤ 0 then some (-1, img)
      else if f.maxValue ≠ 255 then some (-1, img)
      else
        (Image.resize img f.height f.width).bind fun r =>
          if f.pixels.length < f.width.toNat * f.height.toNat then
            some (-1,
              { r with data :=
                  pgmReadData r f.pixels (f.width.toNat * f.height.toNat) })
          else
            some (0,
              { r with data :=
                  pgmReadData r f.pixels (f.width.toNat * f.height.toNat) })

/-- Modelled from the spec: 4-connectivity, two pixels are neighbors iff they
share an edge (up, down, left or right, never diagonal). -/
def adj (p q : Nat × Nat) : Bool :=
  (p.1 == q.1 && (p.2 + 1 == q.2 || q.2 + 1 == p.2)) ||
  (p.2 == q.2 && (p.1 + 1 == q.1 || q.1 + 1 == p.1))

/-- Modelled from the spec: a border pixel lies on row 0, the last row,
column 0 or the last column. -/
def onBorder (img : Image) (p : Nat × Nat) : Bool :=
  p.1 == 0 || p.1 == img.height - 1 || p.2 == 0 || p.2 == img.width - 1

/-- All in-range coordinates of an image, row major. -/
def Image.coords (img : Image) : List (Nat × Nat) :=
  (List.range (img.height * img.width)).map
    (fun i => (i / img.width, i % img.width))

/-- Modelled from the spec: one flood-fill sweep of binaryBackground.  A zero
pixel is marked when it lies on the border, was already marked, or has a
marked 4-neighbor. -/
def bgStep (img : Image) (s : List (Nat × Nat)) : List (Nat × Nat) :=
  img.coords.filter (fun p =>
    img.get p.1 p.2 == 0 &&
      (onBorder img p || decide (p ∈ s) || s.any (fun q => adj p q)))

/-- Iterated flood-fill sweeps starting from the empty marked set. -/
def bgIter (img : Image) : Nat → List (Nat × Nat)
  | 0 => []
  | n + 1 => bgStep img (bgIter img n)

/-- Modelled from the spec: the set of zero pixels 4-connected to the border
through zero pixels, the flood fill run to its fixed point (height*width
sweeps always suffice; one more keeps the bound convenient). -/
def bgReach (img : Image) : List (Nat × Nat) :=
  bgIter img (img.height * img.width + 1)

/-- Modelled from the spec: binaryBackground is declared but not implemented
in the source; per its contract the output pixel at (y, x) is 255 iff the
source pixel is 0 and a 4-connected all-zero path joins (y, x) to the image
border, all other output pixels are 0.  Implemented as the border flood fill
the spec describes, the reachability mask scaled to 0/255. -/
def binaryBackground (img : Image) : Image :=
  ⟨img.height, img.width,
    (List.range (img.height * img.width)).map
      (fun i => if (i / img.width, i % img.width) ∈ bgReach img then 255 else 0)⟩

/-- Existence of a 4-connected path of zero pixels from p to the image border,
as an inductive reachability predicate: an in-range zero border pixel is
connected, and any in-range zero pixel adjacent to a connected pixel is
connected. -/
inductive ZeroPathToBorder (img : Image) : Nat × Nat → Prop where
  | base (p : Nat × Nat) (hy : p.1 < img.height) (hx : p.2 < img.width)
      (hb : onBorder img p = true) (hz : img.get p.1 p.2 = 0) :
      ZeroPathToBorder img p
  | step (p q : Nat × Nat) (hq : ZeroPathToBorder img q) (ha : adj p q = true)
      (hy : p.1 < img.height) (hx : p.2 < img.width)
      (hz : img.get p.1 p.2 = 0) : ZeroPathToBorder img p

/-- C1: the code_bug record.  The in-place translation is documented to produce
the same result as the copying translate for every (dy, dx) but diverges on the
mixed-sign shift (dy, dx) = (-1, 2) applied to the 3x3 test image: the copying
translate yields rows oox/oox/ooo while the in-place pass yields oxx/oxx/xxo. -/
theorem translateInplace_mixed_sign_divergence :
    translateCopy testImg (-1) 2 = some ⟨3, 3, [0, 0, 255, 0, 0, 255, 0, 0, 0]⟩ ∧
    testImg.translateInplace (-1) 2 = ⟨3, 3, [0, 255, 255, 0, 255, 255, 255, 255, 0]⟩ ∧
    some (testImg.translateInplace (-1) 2) ≠ translateCopy testImg (-1) 2 := by
  exact ⟨by decide, by decide, by decide⟩

/-- C4: translating by (0, 0) returns the image itself, but translating by
(0, 1) and then (0, -1) does not recover the 3x3 test image (boundary loss),
so the round-trip law fails in general. -/
theorem translateCopy_zero_id_no_roundtrip :
    (∀ img : Image, translateCopy img 0 0 = some img) ∧
    (translateCopy testImg 0 1).bind (fun q => translateCopy q 0 (-1)) ≠ some testImg := by
  constructor
  · intro img
    simp [translateCopy]
  · decide

/-- C9: whenever the flattened offset dy*width + dx is zero (for example
(dy, dx) = (1, -width)), translateInplace leaves the image unchanged, because
the dispatch on the offset sign treats offset 0 as a no-op. -/
theorem translateInplace_zero_offset_noop (img : Image) (dy dx : Int)
    (h : dy * (img.width : Int) + dx = 0) :
    img.translateInplace dy dx = img := by
  simp [Image.translateInplace, h]

theorem translateInplace_zero_offset_noop_witness :
    (1 * ((testImg.width : Int)) + (-3) = 0) ∧ testImg.translateInplace 1 (-3) = testImg :=
  ⟨by decide, translateInplace_zero_offset_noop testImg 1 (-3) (by decide)⟩

/-- C10: the sized constructors demand positive dimensions (assertion checked,
modelled as none), so translate on an empty image with a non-zero shift and
threshold on an empty image reach a violated constructor precondition instead
of returning an empty result. -/
theorem constructors_assert_on_empty_image (img : Image) (dy dx : Int) (thr : Nat)
    (h0 : img.height = 0 ∨ img.width = 0) (hne : ¬(dy = 0 ∧ dx = 0)) :
    (∀ h w, (mkImage h w).isSome ↔ (0 < h ∧ 0 < w)) ∧
    (∀ h w d, (mkImageLit h w d).isSome → (0 < h ∧ 0 < w)) ∧
    translateCopy img dy dx = none ∧
    threshold img thr = none := by
  refine ⟨?_, ?_, ?_, ?_⟩
  · intro h w
    by_cases hpos : 0 < h ∧ 0 < w <;> simp [mkImage, hpos]
  · intro h w d hsome
    by_cases hpos : 0 < h ∧ 0 < w ∧ d.length = h * w
    · exact ⟨hpos.1, hpos.2.1⟩
    · simp [mkImageLit, hpos] at hsome
  · have hcase : img.width ≤ dx.natAbs ∨ img.height ≤ dy.natAbs := by
      rcases h0 with h0 | h0 <;> simp [h0]
    have hctor : mkImageLit img.height img.width
        (List.replicate (img.width * img.height) 'o') = none := by
      have : ¬(0 < img.height ∧ 0 < img.width ∧
          (List.replicate (img.width * img.height) 'o').length = img.height * img.width) := by
        rcases h0 with h0 | h0 <;> simp [h0]
      unfold mkImageLit
      exact if_neg this
    simp [translateCopy, hne, hcase, hctor]
  · have hctor : mkImage img.height img.width = none := by
      have : ¬(0 < img.height ∧ 0 < img.width) := by
        rcases h0 with h0 | h0 <;> simp [h0]
      simp [mkImage, this]
    simp [threshold, hctor]

theorem constructors_assert_on_empty_image_witness :
    ((emptyImage.height = 0 ∨ emptyImage.width = 0) ∧ ¬((1 : Int) = 0 ∧ (0 : Int) = 0)) ∧
    ((∀ h w, (mkImage h w).isSome ↔ (0 < h ∧ 0 < w)) ∧
      (∀ h w d, (mkImageLit h w d).isSome → (0 < h ∧ 0 < w)) ∧
      translateCopy emptyImage 1 0 = none ∧
      threshold emptyImage 10 = none) :=
  ⟨⟨by decide, by decide⟩,
    constructors_assert_on_empty_image emptyImage 1 0 10 (by decide) (by decide)⟩

/-- C6: isBinary is false on every image with zero height or width, and on a
non-empty image it is true exactly when every pixel is 0 or 255. -/
theorem isBinary_characterization (img : Image) :
    (img.height = 0 ∨ img.width = 0 → isBinary img = false) ∧
    (0 < img.height → 0 < img.width →
      (isBinary img = true ↔
        ∀ y x, y < img.height → x < img.width → (img.get y x = 0 ∨ img.get y x = 255))) := by
  constructor
  · intro h0
    simp [isBinary, h0]
  · intro hH hW
    have h0 : ¬(img.height = 0 ∨ img.width = 0) := by omega
    simp only [isBinary, h0, if_false, List.all_eq_true, List.mem_range]
    constructor
    · intro h y x hy hx
      have := h y hy x hx
      simp only [Bool.not_eq_true', Bool.and_eq_false_iff, bne_eq_false_iff_eq,
        Bool.not_eq_true] at this
      rcases this with h1 | h1
      · exact Or.inl h1
      · exact Or.inr h1
    · intro h y hy x hx
      have := h y x hy hx
      simp only [Bool.not_eq_true', Bool.and_eq_false_iff, bne_eq_false_iff_eq]
      rcases this with h1 | h1
      · exact Or.inl h1
      · exact Or.inr h1

theorem isBinary_characterization_witness :
    (isBinary emptyImage = false) ∧
    (isBinary grayImg = false ∧ (0 : Nat) < grayImg.height) ∧
    (isBinary testImg = true ↔
      ∀ y x, y < testImg.height → x < testImg.width →
        (testImg.get y x = 0 ∨ testImg.get y x = 255)) :=
  ⟨(isBinary_characterization emptyImage).1 (Or.inl rfl),
    ⟨by decide, by decide⟩,
    (isBinary_characterization testImg).2 (by decide) (by decide)⟩

theorem getD_set_nat (l : List Nat) (i j v : Nat) :
    (l.set i v).getD j 0 = if i = j ∧ j < l.length then v else l.getD j 0 := by
  by_cases hj : j < l.length
  · have hj' : j < (l.set i v).length := by simpa using hj
    rw [List.getD_eq_getElem?_getD, List.getElem?_eq_getElem hj', Option.getD_some,
      List.getElem_set, List.getD_eq_getElem?_getD, List.getElem?_eq_getElem hj,
      Option.getD_some]
    by_cases hij : i = j <;> simp [hij, hj]
  · have hj1 : l.length ≤ j := Nat.le_of_not_lt hj
    have hj2 : (l.set i v).length ≤ j := by simpa using hj1
    rw [List.getD_eq_default _ _ hj2, List.getD_eq_default _ _ hj1]
    simp [hj]

theorem flat_index_lt {H W y x : Nat} (hy : y < H) (hx : x < W) :
    y * W + x < H * W := by
  calc y * W + x < y * W + W := by omega
  _ = (y + 1) * W := by ring
  _ ≤ H * W := Nat.mul_le_mul_right W hy

theorem flat_index_eq_iff {W y x Y X : Nat} (hx : x < W) (hX : X < W) :
    y * W + x = Y * W + X ↔ (y = Y ∧ x = X) := by
  have hW : 0 < W := by omega
  constructor
  · intro h
    have h' : x + W * y = X + W * Y := by
      rw [Nat.mul_comm W y, Nat.mul_comm W Y]
      omega
    have hmod := congrArg (fun t => t % W) h'
    simp only [Nat.add_mul_mod_self_left] at hmod
    rw [Nat.mod_eq_of_lt hx, Nat.mod_eq_of_lt hX] at hmod
    have hdiv := congrArg (fun t => t / W) h'
    simp only [Nat.add_mul_div_left _ _ hW] at hdiv
    rw [Nat.div_eq_of_lt hx, Nat.div_eq_of_lt hX] at hdiv
    omega
  · rintro ⟨rfl, rfl⟩
    rfl

theorem Image.height_set (img : Image) (y x v : Nat) :
    (img.set y x v).height = img.height := rfl

theorem Image.width_set (img : Image) (y x v : Nat) :
    (img.set y x v).width = img.width := rfl

theorem Image.length_data_set (img : Image) (y x v : Nat) :
    (img.set y x v).data.length = img.data.length := by
  simp [Image.set]

theorem Image.get_set (img : Image) (y x Y X v : Nat)
    (hx : x < img.width) (hX : X < img.width)
    (hflat : y * img.width + x < img.data.length) :
    (img.set y x v).get Y X = if y = Y ∧ x = X then v else img.get Y X := by
  show (img.data.set (y * img.width + x) v).getD (Y * img.width + X) 0 =
    if y = Y ∧ x = X then v else img.get Y X
  rw [getD_set_nat]
  by_cases hc : y = Y ∧ x = X
  · rcases hc with ⟨rfl, rfl⟩
    simp [hflat]
  · have hne : ¬(y * img.width + x = Y * img.width + X ∧
        Y * img.width + X < img.data.length) := by
      intro hcon
      exact hc ((flat_index_eq_iff hx hX).mp hcon.1)
    rw [if_neg hne, if_neg hc]
    rfl

theorem Image.get_le_255 (img : Image) (hwf : img.wf) (y x : Nat) :
    img.get y x ≤ 255 := by
  unfold Image.get
  by_cases h : y * img.width + x < img.data.length
  · rw [List.getD_eq_getElem?_getD, List.getElem?_eq_getElem h, Option.getD_some]
    exact hwf.2 _ (List.getElem_mem h)
  · rw [List.getD_eq_default _ _ (Nat.le_of_not_lt h)]
    omega

theorem thresholdRow_spec (image : Image) (thr H W y : Nat) (xs : List Nat)
    (acc : Image) (hh : acc.height = H) (hw : acc.width = W)
    (hl : acc.data.length = H * W) (hy : y < H) (hxs : ∀ a ∈ xs, a < W) :
    (thresholdRow image thr y xs acc).height = H ∧
    (thresholdRow image thr y xs acc).width = W ∧
    (thresholdRow image thr y xs acc).data.length = H * W ∧
    ∀ Y X, Y < H → X < W →
      (thresholdRow image thr y xs acc).get Y X =
        if Y = y ∧ X ∈ xs then (if image.get y X < thr then 0 else 255)
        else acc.get Y X := by
  induction xs generalizing acc with
  | nil =>
    refine ⟨hh, hw, hl, fun Y X hY hX => ?_⟩
    simp [thresholdRow]
  | cons x xs ih =>
    have hx : x < W := hxs x (List.mem_cons_self x xs)
    have hxs' : ∀ a ∈ xs, a < W := fun a ha => hxs a (List.mem_cons_of_mem x ha)
    have hstep : thresholdRow image thr y (x :: xs) acc =
        thresholdRow image thr y xs
          (acc.set y x (if image.get y x < thr then 0 else 255)) := by
      by_cases hv : image.get y x < thr <;> simp [thresholdRow, hv]
    set w := if image.get y x < thr then 0 else 255 with hwdef
    have hh' : (acc.set y x w).height = H := by rw [Image.height_set, hh]
    have hw' : (acc.set y x w).width = W := by rw [Image.width_set, hw]
    have hl' : (acc.set y x w).data.length = H * W := by
      rw [Image.length_data_set, hl]
    obtain ⟨d1, d2, d3, hget⟩ := ih (acc.set y x w) hh' hw' hl' hxs'
    rw [hstep]
    refine ⟨d1, d2, d3, fun Y X hY hX => ?_⟩
    rw [hget Y X hY hX]
    have hsetget := Image.get_set acc y x Y X w (hw ▸ hx) (hw ▸ hX)
      (by rw [hw, hl]; exact flat_index_lt hy hx)
    by_cases h1 : Y = y ∧ X ∈ xs
    · have hmem : Y = y ∧ X ∈ x :: xs := ⟨h1.1, List.mem_cons_of_mem x h1.2⟩
      rw [if_pos h1, if_pos hmem]
    · rw [if_neg h1, hsetget]
      by_cases h2 : y = Y ∧ x = X
      · have hmem : Y = y ∧ X ∈ x :: xs :=
          ⟨h2.1.symm, h2.2 ▸ List.mem_cons_self x xs⟩
        rw [if_pos hmem, hwdef, h2.2]
        have hc : y = Y ∧ X = X := ⟨h2.1, rfl⟩
        rw [if_pos hc]
      · have hmem : ¬(Y = y ∧ X ∈ x :: xs) := by
          intro hcon
          rcases List.mem_cons.mp hcon.2 with hX1 | hX1
          · exact h2 ⟨hcon.1.symm, hX1.symm⟩
          · exact h1 ⟨hcon.1, hX1⟩
        rw [if_neg h2, if_neg hmem]

theorem thresholdLoop_spec (image : Image) (thr H W : Nat) (ys : List Nat)
    (acc : Image) (hh : acc.height = H) (hw : acc.width = W)
    (hl : acc.data.length = H * W) (hWimg : image.width = W)
    (hys : ∀ a ∈ ys, a < H) :
    (thresholdLoop image thr ys acc).height = H ∧
    (thresholdLoop image thr ys acc).width = W ∧
    (thresholdLoop image thr ys acc).data.length = H * W ∧
    ∀ Y X, Y < H → X < W →
      (thresholdLoop image thr ys acc).get Y X =
        if Y ∈ ys then (if image.get Y X < thr then 0 else 255)
        else acc.get Y X := by
  induction ys generalizing acc with
  | nil =>
    refine ⟨hh, hw, hl, fun Y X hY hX => ?_⟩
    simp [thresholdLoop]
  | cons y ys ih =>
    have hy : y < H := hys y (List.mem_cons_self y ys)
    have hys' : ∀ a ∈ ys, a < H := fun a ha => hys a (List.mem_cons_of_mem y ha)
    obtain ⟨r1, r2, r3, hrow⟩ := thresholdRow_spec image thr H W y
      (List.range image.width) acc hh hw hl hy
      (fun a ha => by rw [← hWimg]; exact List.mem_range.mp ha)
    obtain ⟨d1, d2, d3, hget⟩ :=
      ih (thresholdRow image thr y (List.range image.width) acc) r1 r2 r3 hys'
    refine ⟨d1, d2, d3, fun Y X hY hX => ?_⟩
    show (thresholdLoop image thr ys
      (thresholdRow image thr y (List.range image.width) acc)).get Y X = _
    rw [hget Y X hY hX, hrow Y X hY hX]
    by_cases hc1 : Y ∈ ys
    · have hm : Y ∈ y :: ys := List.mem_cons_of_mem y hc1
      rw [if_pos hc1, if_pos hm]
    · rw [if_neg hc1]
      by_cases hc2 : Y = y
      · have hrowc : Y = y ∧ X ∈ List.range image.width :=
          ⟨hc2, List.mem_range.mpr (by rw [hWimg]; exact hX)⟩
        have hm : Y ∈ y :: ys := by rw [hc2]; exact List.mem_cons_self y ys
        rw [if_pos hrowc, if_pos hm, hc2]
      · have hrowc : ¬(Y = y ∧ X ∈ List.range image.width) := fun hcon => hc2 hcon.1
        have hm : ¬Y ∈ y :: ys := by
          intro hcon
          rcases List.mem_cons.mp hcon with h | h
          · exact hc2 h
          · exact hc1 h
        rw [if_neg hrowc, if_neg hm]

/-- C5 (amended to non-empty inputs): threshold returns an image of the same
dimensions whose pixel is 0 exactly when the input pixel is strictly below
thr and 255 otherwise; the output is binary, thr = 0 whitens everything, and
thr = 255 blackens every pixel that is not exactly 255. -/
theorem threshold_characterization (img : Image) (thr : Nat)
    (hwf : img.wf) (hH : 0 < img.height) (hW : 0 < img.width)
    (hthr : thr ≤ 255) :
    ∃ out, threshold img thr = some out ∧
      out.height = img.height ∧ out.width = img.width ∧
      (∀ Y X, Y < img.height → X < img.width →
        ((out.get Y X = 0 ↔ img.get Y X < thr) ∧
          (out.get Y X = 0 ∨ out.get Y X = 255))) ∧
      (thr = 0 → ∀ Y X, Y < img.height → X < img.width → out.get Y X = 255) ∧
      (thr = 255 → ∀ Y X, Y < img.height → X < img.width →
        img.get Y X ≠ 255 → out.get Y X = 0) := by
  have hmk : mkImage img.height img.width =
      some ⟨img.height, img.width, List.replicate (img.height * img.width) 0⟩ := by
    unfold mkImage
    rw [if_pos ⟨hH, hW⟩]
  have hthresh : threshold img thr =
      some (thresholdLoop img thr (List.range img.height)
        ⟨img.height, img.width, List.replicate (img.height * img.width) 0⟩) := by
    unfold threshold
    rw [hmk]
  obtain ⟨d1, d2, d3, hget⟩ := thresholdLoop_spec img thr img.height img.width
    (List.range img.height)
    ⟨img.height, img.width, List.replicate (img.height * img.width) 0⟩
    rfl rfl (by simp) rfl (fun a ha => List.mem_range.mp ha)
  refine ⟨_, hthresh, d1, d2, ?_, ?_, ?_⟩
  · intro Y X hY hX
    have h := hget Y X hY hX
    rw [if_pos (List.mem_range.mpr hY)] at h
    rw [h]
    by_cases hv : img.get Y X < thr
    · rw [if_pos hv]
      exact ⟨by simp [hv], Or.inl rfl⟩
    · rw [if_neg hv]
      exact ⟨by simp [hv], Or.inr rfl⟩
  · intro h0 Y X hY hX
    have h := hget Y X hY hX
    rw [if_pos (List.mem_range.mpr hY)] at h
    rw [h, h0]
    simp
  · intro h255 Y X hY hX hne
    subst h255
    have hle := Image.get_le_255 img hwf Y X
    have hv : img.get Y X < 255 := by omega
    have h := hget Y X hY hX
    rw [if_pos (List.mem_range.mpr hY), if_pos hv] at h
    exact h

/-- C5 counterexample: on the empty image (reachable via the default
constructor) threshold reaches the asserting sized constructor and does not
return an image at all, contradicting the claim for every image. -/
theorem threshold_empty_asserts : threshold emptyImage 10 = none := by decide

theorem threshold_characterization_witness :
    (grayImg.wf ∧ 0 < grayImg.height ∧ 0 < grayImg.width ∧ (10 : Nat) ≤ 255) ∧
    (∃ out, threshold grayImg 10 = some out ∧
      out.height = grayImg.height ∧ out.width = grayImg.width ∧
      (∀ Y X, Y < grayImg.height → X < grayImg.width →
        ((out.get Y X = 0 ↔ grayImg.get Y X < 10) ∧
          (out.get Y X = 0 ∨ out.get Y X = 255))) ∧
      ((10 : Nat) = 0 → ∀ Y X, Y < grayImg.height → X < grayImg.width →
        out.get Y X = 255) ∧
      ((10 : Nat) = 255 → ∀ Y X, Y < grayImg.height → X < grayImg.width →
        grayImg.get Y X ≠ 255 → out.get Y X = 0)) :=
  ⟨⟨by decide, by decide, by decide, by decide⟩,
    threshold_characterization grayImg 10 (by decide) (by decide) (by decide)
      (by decide)⟩

theorem getD_replicate_zero (n i : Nat) :
    (List.replicate n (0 : Nat)).getD i 0 = 0 := by
  by_cases h : i < n
  · rw [List.getD_eq_getElem?_getD, List.getElem?_eq_getElem (by simpa using h),
      Option.getD_some, List.getElem_replicate]
  · rw [List.getD_eq_default]
    simpa using Nat.le_of_not_lt h

theorem mkImageLit_black (H W : Nat) (hH : 0 < H) (hW : 0 < W) :
    mkImageLit H W (List.replicate (W * H) 'o') =
      some ⟨H, W, List.replicate (W * H) 0⟩ := by
  unfold mkImageLit
  rw [if_pos ⟨hH, hW, by simp [Nat.mul_comm]⟩]
  simp [List.map_replicate, charToPixel]

theorem translateRow_spec (image : Image) (dy dx : Int) (ch : Nat) (H W : Nat)
    (hW : image.width = W)
    (hguard : 0 ≤ (ch : Int) + dy ∧ (ch : Int) + dy < (H : Int))
    (xs : List Nat) (acc : Image)
    (hh : acc.height = H) (hw : acc.width = W) (hl : acc.data.length = H * W) :
    (translateRow image dy dx ch xs acc).height = H ∧
    (translateRow image dy dx ch xs acc).width = W ∧
    (translateRow image dy dx ch xs acc).data.length = H * W ∧
    ∀ Y X, Y < H → X < W →
      (translateRow image dy dx ch xs acc).get Y X =
        if (Y : Int) = (ch : Int) + dy ∧ ∃ cw ∈ xs, (cw : Int) + dx = (X : Int) then
          image.get ch ((X : Int) - dx).toNat
        else acc.get Y X := by
  induction xs generalizing acc with
  | nil =>
    refine ⟨hh, hw, hl, fun Y X hY hX => ?_⟩
    simp [translateRow]
  | cons cw xs ih =>
    have hstep : translateRow image dy dx ch (cw :: xs) acc =
        translateRow image dy dx ch xs
          (if 0 ≤ (cw : Int) + dx ∧ (cw : Int) + dx < (image.width : Int) then
            acc.set ((ch : Int) + dy).toNat ((cw : Int) + dx).toNat
              (image.get ch cw)
          else acc) := rfl
    by_cases hg : 0 ≤ (cw : Int) + dx ∧ (cw : Int) + dx < (image.width : Int)
    · rw [hstep, if_pos hg]
      rw [hW] at hg
      have hyiH : ((ch : Int) + dy).toNat < H := by omega
      have hxiW : ((cw : Int) + dx).toNat < W := by omega
      have hh' : (acc.set ((ch : Int) + dy).toNat ((cw : Int) + dx).toNat
          (image.get ch cw)).height = H := by rw [Image.height_set, hh]
      have hw' : (acc.set ((ch : Int) + dy).toNat ((cw : Int) + dx).toNat
          (image.get ch cw)).width = W := by rw [Image.width_set, hw]
      have hl' : (acc.set ((ch : Int) + dy).toNat ((cw : Int) + dx).toNat
          (image.get ch cw)).data.length = H * W := by
        rw [Image.length_data_set, hl]
      obtain ⟨d1, d2, d3, hget⟩ := ih _ hh' hw' hl'
      refine ⟨d1, d2, d3, fun Y X hY hX => ?_⟩
      rw [hget Y X hY hX]
      have hsetget := Image.get_set acc ((ch : Int) + dy).toNat
        ((cw : Int) + dx).toNat Y X (image.get ch cw)
        (hw ▸ hxiW) (hw ▸ hX) (by rw [hw, hl]; exact flat_index_lt hyiH hxiW)
      by_cases h1 : (Y : Int) = (ch : Int) + dy ∧
          ∃ cw1 ∈ xs, (cw1 : Int) + dx = (X : Int)
      · obtain ⟨hYe, cw1, hmem, heq⟩ := h1
        have hxs0 : (Y : Int) = (ch : Int) + dy ∧
            ∃ cw1 ∈ xs, (cw1 : Int) + dx = (X : Int) := ⟨hYe, cw1, hmem, heq⟩
        have hcons : (Y : Int) = (ch : Int) + dy ∧
            ∃ cw1 ∈ cw :: xs, (cw1 : Int) + dx = (X : Int) :=
          ⟨hYe, cw1, List.mem_cons_of_mem cw hmem, heq⟩
        rw [if_pos hxs0, if_pos hcons]
      · rw [if_neg h1, hsetget]
        by_cases h2 : ((ch : Int) + dy).toNat = Y ∧ ((cw : Int) + dx).toNat = X
        · obtain ⟨h2a, h2b⟩ := h2
          have hc2 : ((ch : Int) + dy).toNat = Y ∧
              ((cw : Int) + dx).toNat = X := ⟨h2a, h2b⟩
          have hYe : (Y : Int) = (ch : Int) + dy := by omega
          have hXe : (cw : Int) + dx = (X : Int) := by omega
          have hcons : (Y : Int) = (ch : Int) + dy ∧
              ∃ cw1 ∈ cw :: xs, (cw1 : Int) + dx = (X : Int) :=
            ⟨hYe, cw, List.mem_cons_self cw xs, hXe⟩
          rw [if_pos hc2, if_pos hcons]
          have harg : ((X : Int) - dx).toNat = cw := by omega
          rw [harg]
        · have hmem : ¬((Y : Int) = (ch : Int) + dy ∧
              ∃ cw1 ∈ cw :: xs, (cw1 : Int) + dx = (X : Int)) := by
            rintro ⟨hYe, cw1, hmem1, heq1⟩
            rcases List.mem_cons.mp hmem1 with hhd | htl
            · subst hhd
              exact h2 ⟨by omega, by omega⟩
            · exact h1 ⟨hYe, cw1, htl, heq1⟩
          rw [if_neg h2, if_neg hmem]
    · rw [hstep, if_neg hg]
      obtain ⟨d1, d2, d3, hget⟩ := ih acc hh hw hl
      refine ⟨d1, d2, d3, fun Y X hY hX => ?_⟩
      rw [hget Y X hY hX]
      rw [hW] at hg
      by_cases h1 : (Y : Int) = (ch : Int) + dy ∧
          ∃ cw1 ∈ xs, (cw1 : Int) + dx = (X : Int)
      · obtain ⟨hYe, cw1, hmem, heq⟩ := h1
        have hxs0 : (Y : Int) = (ch : Int) + dy ∧
            ∃ cw1 ∈ xs, (cw1 : Int) + dx = (X : Int) := ⟨hYe, cw1, hmem, heq⟩
        have hcons : (Y : Int) = (ch : Int) + dy ∧
            ∃ cw1 ∈ cw :: xs, (cw1 : Int) + dx = (X : Int) :=
          ⟨hYe, cw1, List.mem_cons_of_mem cw hmem, heq⟩
        rw [if_pos hxs0, if_pos hcons]
      · have hmem : ¬((Y : Int) = (ch : Int) + dy ∧
            ∃ cw1 ∈ cw :: xs, (cw1 : Int) + dx = (X : Int)) := by
          rintro ⟨hYe, cw1, hmem1, heq1⟩
          rcases List.mem_cons.mp hmem1 with hhd | htl
          · subst hhd
            exact hg ⟨by omega, by omega⟩
          · exact h1 ⟨hYe, cw1, htl, heq1⟩
        rw [if_neg h1, if_neg hmem]

theorem range_shift_exists (Wimg : Nat) (dx : Int) (X : Nat) :
    (∃ cw ∈ List.range Wimg, (cw : Int) + dx = (X : Int)) ↔
      (0 ≤ (X : Int) - dx ∧ (X : Int) - dx < (Wimg : Int)) := by
  constructor
  · rintro ⟨cw, hmem, heq⟩
    have := List.mem_range.mp hmem
    omega
  · rintro ⟨h1, h2⟩
    refine ⟨((X : Int) - dx).toNat, List.mem_range.mpr (by omega), by omega⟩

theorem translateLoop_spec (image : Image) (dy dx : Int) (H W : Nat)
    (hH : image.height = H) (hW : image.width = W)
    (ys : List Nat) (acc : Image)
    (hh : acc.height = H) (hw : acc.width = W) (hl : acc.data.length = H * W) :
    (translateLoop image dy dx ys acc).height = H ∧
    (translateLoop image dy dx ys acc).width = W ∧
    (translateLoop image dy dx ys acc).data.length = H * W ∧
    ∀ Y X, Y < H → X < W →
      (translateLoop image dy dx ys acc).get Y X =
        if (∃ ch ∈ ys, (ch : Int) + dy = (Y : Int)) ∧
            0 ≤ (X : Int) - dx ∧ (X : Int) - dx < (W : Int) then
          image.get ((Y : Int) - dy).toNat ((X : Int) - dx).toNat
        else acc.get Y X := by
  induction ys generalizing acc with
  | nil =>
    refine ⟨hh, hw, hl, fun Y X hY hX => ?_⟩
    simp [translateLoop]
  | cons ch ys ih =>
    have hstep : translateLoop image dy dx (ch :: ys) acc =
        translateLoop image dy dx ys
          (if 0 ≤ (ch : Int) + dy ∧ (ch : Int) + dy < (image.height : Int) then
            translateRow image dy dx ch (List.range image.width) acc
          else acc) := rfl
    by_cases hg : 0 ≤ (ch : Int) + dy ∧ (ch : Int) + dy < (image.height : Int)
    · rw [hstep, if_pos hg]
      rw [hH] at hg
      obtain ⟨r1, r2, r3, hrow⟩ := translateRow_spec image dy dx ch H W hW hg
        (List.range image.width) acc hh hw hl
      obtain ⟨d1, d2, d3, hget⟩ :=
        ih (translateRow image dy dx ch (List.range image.width) acc) r1 r2 r3
      refine ⟨d1, d2, d3, fun Y X hY hX => ?_⟩
      rw [hget Y X hY hX, hrow Y X hY hX]
      have hexiff : (∃ cw ∈ List.range image.width, (cw : Int) + dx = (X : Int)) ↔
          (0 ≤ (X : Int) - dx ∧ (X : Int) - dx < (W : Int)) := by
        rw [hW]
        exact range_shift_exists W dx X
      by_cases hXc : 0 ≤ (X : Int) - dx ∧ (X : Int) - dx < (W : Int)
      · by_cases hys : ∃ ch1 ∈ ys, (ch1 : Int) + dy = (Y : Int)
        · have hys0 : (∃ ch1 ∈ ys, (ch1 : Int) + dy = (Y : Int)) ∧
              0 ≤ (X : Int) - dx ∧ (X : Int) - dx < (W : Int) := ⟨hys, hXc⟩
          obtain ⟨ch1, hm1, he1⟩ := hys
          have hcons : (∃ ch1 ∈ ch :: ys, (ch1 : Int) + dy = (Y : Int)) ∧
              0 ≤ (X : Int) - dx ∧ (X : Int) - dx < (W : Int) :=
            ⟨⟨ch1, List.mem_cons_of_mem ch hm1, he1⟩, hXc⟩
          rw [if_pos hys0, if_pos hcons]
        · have hys0 : ¬((∃ ch1 ∈ ys, (ch1 : Int) + dy = (Y : Int)) ∧
              0 ≤ (X : Int) - dx ∧ (X : Int) - dx < (W : Int)) :=
            fun hcon => hys hcon.1
          rw [if_neg hys0]
          by_cases hhd : (ch : Int) + dy = (Y : Int)
          · have hrowc : (Y : Int) = (ch : Int) + dy ∧
                ∃ cw ∈ List.range image.width, (cw : Int) + dx = (X : Int) :=
              ⟨hhd.symm, hexiff.mpr hXc⟩
            have hcons : (∃ ch1 ∈ ch :: ys, (ch1 : Int) + dy = (Y : Int)) ∧
                0 ≤ (X : Int) - dx ∧ (X : Int) - dx < (W : Int) :=
              ⟨⟨ch, List.mem_cons_self ch ys, hhd⟩, hXc⟩
            rw [if_pos hrowc, if_pos hcons]
            have harg : ((Y : Int) - dy).toNat = ch := by omega
            rw [harg]
          · have hrowc : ¬((Y : Int) = (ch : Int) + dy ∧
                ∃ cw ∈ List.range image.width, (cw : Int) + dx = (X : Int)) :=
              fun hcon => hhd hcon.1.symm
            have hcons : ¬((∃ ch1 ∈ ch :: ys, (ch1 : Int) + dy = (Y : Int)) ∧
                0 ≤ (X : Int) - dx ∧ (X : Int) - dx < (W : Int)) := by
              rintro ⟨⟨ch1, hm1, he1⟩, hc2⟩
              rcases List.mem_cons.mp hm1 with hhd1 | htl
              · subst hhd1
                exact hhd he1
              · exact hys ⟨ch1, htl, he1⟩
            rw [if_neg hrowc, if_neg hcons]
      · have hys0 : ¬((∃ ch1 ∈ ys, (ch1 : Int) + dy = (Y : Int)) ∧
            0 ≤ (X : Int) - dx ∧ (X : Int) - dx < (W : Int)) :=
          fun hcon => hXc hcon.2
        have hrowc : ¬((Y : Int) = (ch : Int) + dy ∧
            ∃ cw ∈ List.range image.width, (cw : Int) + dx = (X : Int)) :=
          fun hcon => hXc (hexiff.mp hcon.2)
        have hcons : ¬((∃ ch1 ∈ ch :: ys, (ch1 : Int) + dy = (Y : Int)) ∧
            0 ≤ (X : Int) - dx ∧ (X : Int) - dx < (W : Int)) :=
          fun hcon => hXc hcon.2
        rw [if_neg hys0, if_neg hrowc, if_neg hcons]
    · rw [hstep, if_neg hg]
      rw [hH] at hg
      obtain ⟨d1, d2, d3, hget⟩ := ih acc hh hw hl
      refine ⟨d1, d2, d3, fun Y X hY hX => ?_⟩
      rw [hget Y X hY hX]
      by_cases hys : (∃ ch1 ∈ ys, (ch1 : Int) + dy = (Y : Int)) ∧
          0 ≤ (X : Int) - dx ∧ (X : Int) - dx < (W : Int)
      · obtain ⟨⟨ch1, hm1, he1⟩, hc2⟩ := hys
        have hys0 : (∃ ch1 ∈ ys, (ch1 : Int) + dy = (Y : Int)) ∧
            0 ≤ (X : Int) - dx ∧ (X : Int) - dx < (W : Int) :=
          ⟨⟨ch1, hm1, he1⟩, hc2⟩
        have hcons : (∃ ch1 ∈ ch :: ys, (ch1 : Int) + dy = (Y : Int)) ∧
            0 ≤ (X : Int) - dx ∧ (X : Int) - dx < (W : Int) :=
          ⟨⟨ch1, List.mem_cons_of_mem ch hm1, he1⟩, hc2⟩
        rw [if_pos hys0, if_pos hcons]
      · have hcons : ¬((∃ ch1 ∈ ch :: ys, (ch1 : Int) + dy = (Y : Int)) ∧
            0 ≤ (X : Int) - dx ∧ (X : Int) - dx < (W : Int)) := by
          rintro ⟨⟨ch1, hm1, he1⟩, hc2⟩
          rcases List.mem_cons.mp hm1 with hhd1 | htl
          · subst hhd1
            exact hg ⟨by omega, by omega⟩
          · exact hys ⟨⟨ch1, htl, he1⟩, hc2⟩
        rw [if_neg hys, if_neg hcons]

theorem range_shift_exists_dy (Himg : Nat) (dy : Int) (Y : Nat) :
    (∃ ch ∈ List.range Himg, (ch : Int) + dy = (Y : Int)) ↔
      (0 ≤ (Y : Int) - dy ∧ (Y : Int) - dy < (Himg : Int)) := by
  constructor
  · rintro ⟨ch, hm, he⟩
    have := List.mem_range.mp hm
    omega
  · rintro ⟨h1, h2⟩
    exact ⟨((Y : Int) - dy).toNat, List.mem_range.mpr (by omega), by omega⟩

/-- C2 (amended to non-empty inputs): translate returns an image of the same
dimensions in which every pixel (Y, X) holds the input pixel (Y-dy, X-dx)
when that source coordinate is inside the image and 0 (black) otherwise. -/
theorem translateCopy_characterization (img : Image) (dy dx : Int)
    (hH : 0 < img.height) (hW : 0 < img.width) :
    ∃ out, translateCopy img dy dx = some out ∧
      out.height = img.height ∧ out.width = img.width ∧
      ∀ Y X, Y < img.height → X < img.width →
        out.get Y X =
          if 0 ≤ (Y : Int) - dy ∧ (Y : Int) - dy < (img.height : Int) ∧
              0 ≤ (X : Int) - dx ∧ (X : Int) - dx < (img.width : Int) then
            img.get ((Y : Int) - dy).toNat ((X : Int) - dx).toNat
          else 0 := by
  by_cases h00 : dy = 0 ∧ dx = 0
  · obtain ⟨rfl, rfl⟩ := h00
    refine ⟨img, by simp [translateCopy], rfl, rfl, fun Y X hY hX => ?_⟩
    have hcond : 0 ≤ (Y : Int) - 0 ∧ (Y : Int) - 0 < (img.height : Int) ∧
        0 ≤ (X : Int) - 0 ∧ (X : Int) - 0 < (img.width : Int) := by
      refine ⟨by omega, by omega, by omega, by omega⟩
    rw [if_pos hcond]
    have e1 : ((Y : Int) - 0).toNat = Y := by omega
    have e2 : ((X : Int) - 0).toNat = X := by omega
    rw [e1, e2]
  · by_cases hbig : img.width ≤ dx.natAbs ∨ img.height ≤ dy.natAbs
    · have hblack := mkImageLit_black img.height img.width hH hW
      refine ⟨⟨img.height, img.width, List.replicate (img.width * img.height) 0⟩,
        ?_, rfl, rfl, fun Y X hY hX => ?_⟩
      · unfold translateCopy
        rw [if_neg h00, if_pos hbig, hblack]
      · have hcond : ¬(0 ≤ (Y : Int) - dy ∧ (Y : Int) - dy < (img.height : Int) ∧
            0 ≤ (X : Int) - dx ∧ (X : Int) - dx < (img.width : Int)) := by
          rcases hbig with h | h <;> omega
        rw [if_neg hcond]
        exact getD_replicate_zero _ _
    · have hblack := mkImageLit_black img.height img.width hH hW
      have htrans : translateCopy img dy dx =
          some (translateLoop img dy dx (List.range img.height)
            ⟨img.height, img.width, List.replicate (img.width * img.height) 0⟩) := by
        unfold translateCopy
        rw [if_neg h00, if_neg hbig, hblack]
      obtain ⟨d1, d2, d3, hget⟩ := translateLoop_spec img dy dx
        img.height img.width rfl rfl (List.range img.height)
        ⟨img.height, img.width, List.replicate (img.width * img.height) 0⟩
        rfl rfl (by simp [Nat.mul_comm])
      refine ⟨_, htrans, d1, d2, fun Y X hY hX => ?_⟩
      rw [hget Y X hY hX]
      by_cases hcond : 0 ≤ (Y : Int) - dy ∧ (Y : Int) - dy < (img.height : Int) ∧
          0 ≤ (X : Int) - dx ∧ (X : Int) - dx < (img.width : Int)
      · have hc1 : (∃ ch ∈ List.range img.height, (ch : Int) + dy = (Y : Int)) ∧
            0 ≤ (X : Int) - dx ∧ (X : Int) - dx < (img.width : Int) :=
          ⟨(range_shift_exists_dy img.height dy Y).mpr ⟨hcond.1, hcond.2.1⟩,
            hcond.2.2⟩
        rw [if_pos hc1, if_pos hcond]
      · have hc1 : ¬((∃ ch ∈ List.range img.height, (ch : Int) + dy = (Y : Int)) ∧
            0 ≤ (X : Int) - dx ∧ (X : Int) - dx < (img.width : Int)) := by
          rintro ⟨hex, h3, h4⟩
          obtain ⟨hy1, hy2⟩ := (range_shift_exists_dy img.height dy Y).mp hex
          exact hcond ⟨hy1, hy2, h3, h4⟩
        rw [if_neg hc1, if_neg hcond]
        exact getD_replicate_zero _ _

/-- C2 counterexample: on the empty image with shift (2, 0) translate reaches
the asserting literal constructor and returns no image at all. -/
theorem translateCopy_empty_asserts : translateCopy emptyImage 2 0 = none := by
  decide

theorem translateCopy_characterization_witness :
    ((0 : Nat) < testImg.height ∧ (0 : Nat) < testImg.width) ∧
    (∃ out, translateCopy testImg 1 1 = some out ∧
      out.height = testImg.height ∧ out.width = testImg.width ∧
      ∀ Y X, Y < testImg.height → X < testImg.width →
        out.get Y X =
          if 0 ≤ (Y : Int) - 1 ∧ (Y : Int) - 1 < (testImg.height : Int) ∧
              0 ≤ (X : Int) - 1 ∧ (X : Int) - 1 < (testImg.width : Int) then
            testImg.get ((Y : Int) - 1).toNat ((X : Int) - 1).toNat
          else 0) :=
  ⟨⟨by decide, by decide⟩,
    translateCopy_characterization testImg 1 1 (by decide) (by decide)⟩

/-- C3 (amended to non-empty inputs): a shift whose magnitude meets or exceeds
either extent yields an all-black image of the same dimensions, regardless of
the other component. -/
theorem translateCopy_large_shift_black (img : Image) (dy dx : Int)
    (hH : 0 < img.height) (hW : 0 < img.width)
    (hbig : img.width ≤ dx.natAbs ∨ img.height ≤ dy.natAbs) :
    ∃ out, translateCopy img dy dx = some out ∧
      out.height = img.height ∧ out.width = img.width ∧
      ∀ Y X, Y < img.height → X < img.width → out.get Y X = 0 := by
  have h00 : ¬(dy = 0 ∧ dx = 0) := by
    rintro ⟨rfl, rfl⟩
    rcases hbig with h | h <;> simp at h <;> omega
  have hblack := mkImageLit_black img.height img.width hH hW
  refine ⟨⟨img.height, img.width, List.replicate (img.width * img.height) 0⟩,
    ?_, rfl, rfl, fun Y X hY hX => ?_⟩
  · unfold translateCopy
    rw [if_neg h00, if_pos hbig, hblack]
  · exact getD_replicate_zero _ _

/-- C3 counterexample: on the empty image with shift (0, 2), whose magnitude
meets the (zero) width, translate returns no image instead of a black one. -/
theorem translateCopy_empty_large_shift_asserts :
    translateCopy emptyImage 0 2 = none := by decide

theorem translateCopy_large_shift_black_witness :
    ((0 : Nat) < testImg.height ∧ (0 : Nat) < testImg.width ∧
      (testImg.width ≤ (10 : Int).natAbs ∨ testImg.height ≤ (0 : Int).natAbs)) ∧
    (∃ out, translateCopy testImg 0 10 = some out ∧
      out.height = testImg.height ∧ out.width = testImg.width ∧
      ∀ Y X, Y < testImg.height → X < testImg.width → out.get Y X = 0) :=
  ⟨⟨by decide, by decide, by decide⟩,
    translateCopy_large_shift_black testImg 0 10 (by decide) (by decide)
      (by decide)⟩

/-- C7 (amended): loadFromPGM reports a distinct failure result (-1, never an
abort) exactly when the file cannot be opened, the magic is not P5, a declared
dimension is non-positive, the max value is not 255, or the pixel read falls
short; the target image is untouched on every failure detected before the
pixel read.  (The unqualified no-corruption clause of the claim fails: after a
short pixel read the image has already been resized and partially
overwritten.) -/
theorem loadFromPGM_characterization (img : Image) (file : Option PGMFile) :
    ∃ r, loadFromPGM img file = some r ∧
      (r.1 = 0 ∨ r.1 = -1) ∧
      (r.1 = 0 ↔ ∃ f, file = some f ∧ f.magic = "P5" ∧ 0 < f.width ∧
        0 < f.height ∧ f.maxValue = 255 ∧
        f.width.toNat * f.height.toNat ≤ f.pixels.length) ∧
      ((file = none ∨ ∃ f, file = some f ∧ (f.magic ≠ "P5" ∨ f.width ≤ 0 ∨
        f.height ≤ 0 ∨ f.maxValue ≠ 255)) → r.2 = img) := by
  rcases file with _ | f
  · refine ⟨(-1, img), rfl, Or.inr rfl, ?_, fun _ => rfl⟩
    constructor
    · intro h
      exact absurd (show (-1 : Int) = 0 from h) (by omega)
    · rintro ⟨f, hf, -⟩
      cases hf
  · by_cases h1 : f.magic ≠ "P5"
    · refine ⟨(-1, img), ?_, Or.inr rfl, ?_, fun _ => rfl⟩
      · simp only [loadFromPGM]
        rw [if_pos h1]
      · constructor
        · intro h
          exact absurd (show (-1 : Int) = 0 from h) (by omega)
        · rintro ⟨f', hf', hm, -⟩
          injection hf' with hf'
          subst hf'
          exact absurd hm h1
    · by_cases h2 : f.width ≤ 0
      · refine ⟨(-1, img), ?_, Or.inr rfl, ?_, fun _ => rfl⟩
        · simp only [loadFromPGM]
          rw [if_neg h1, if_pos h2]
        · constructor
          · intro h
            exact absurd (show (-1 : Int) = 0 from h) (by omega)
          · rintro ⟨f', hf', -, hw, -⟩
            injection hf' with hf'
            subst hf'
            exact absurd hw (by omega)
      · by_cases h3 : f.height ≤ 0
        · refine ⟨(-1, img), ?_, Or.inr rfl, ?_, fun _ => rfl⟩
          · simp only [loadFromPGM]
            rw [if_neg h1, if_neg h2, if_pos h3]
          · constructor
            · intro h
              exact absurd (show (-1 : Int) = 0 from h) (by omega)
            · rintro ⟨f', hf', -, -, hh, -⟩
              injection hf' with hf'
              subst hf'
              exact absurd hh (by omega)
        · by_cases h4 : f.maxValue ≠ 255
          · refine ⟨(-1, img), ?_, Or.inr rfl, ?_, fun _ => rfl⟩
            · simp only [loadFromPGM]
              rw [if_neg h1, if_neg h2, if_neg h3, if_pos h4]
            · constructor
              · intro h
                exact absurd (show (-1 : Int) = 0 from h) (by omega)
              · rintro ⟨f', hf', -, -, -, hmv, -⟩
                injection hf' with hf'
                subst hf'
                exact absurd hmv h4
          · have hm : f.magic = "P5" := not_not.mp h1
            have hw : 0 < f.width := lt_of_not_le h2
            have hh : 0 < f.height := lt_of_not_le h3
            have hmv : f.maxValue = 255 := not_not.mp h4
            have hres : Image.resize img f.height f.width =
                some ⟨f.height.toNat, f.width.toNat,
                  List.replicate (f.height.toNat * f.width.toNat) 0⟩ := by
              unfold Image.resize
              rw [if_pos ⟨hh, hw⟩]
            have hnotbad : (some f = none ∨ ∃ f', some f = some f' ∧
                (f'.magic ≠ "P5" ∨ f'.width ≤ 0 ∨ f'.height ≤ 0 ∨
                  f'.maxValue ≠ 255)) → False := by
              rintro (hnone | ⟨f', hf', hbad⟩)
              · cases hnone
              · injection hf' with hf'
                subst hf'
                rcases hbad with h | h | h | h
                · exact h hm
                · omega
                · omega
                · exact h hmv
            by_cases h5 : f.pixels.length < f.width.toNat * f.height.toNat
            · have hload : loadFromPGM img (some f) = some (-1,
                  { height := f.height.toNat, width := f.width.toNat,
                    data := pgmReadData
                      ⟨f.height.toNat, f.width.toNat,
                        List.replicate (f.height.toNat * f.width.toNat) 0⟩
                      f.pixels (f.width.toNat * f.height.toNat) }) := by
                simp only [loadFromPGM]
                rw [if_neg h1, if_neg h2, if_neg h3, if_neg h4, hres,
                  Option.some_bind, if_pos h5]
              refine ⟨_, hload, Or.inr rfl, ?_,
                fun hcon => absurd hcon (fun hcon2 => hnotbad hcon2)⟩
              constructor
              · intro h
                exact absurd (show (-1 : Int) = 0 from h) (by omega)
              · rintro ⟨f', hf', -, -, -, -, hlen⟩
                injection hf' with hf'
                subst hf'
                exact absurd hlen (by omega)
            · have hload : loadFromPGM img (some f) = some (0,
                  { height := f.height.toNat, width := f.width.toNat,
                    data := pgmReadData
                      ⟨f.height.toNat, f.width.toNat,
                        List.replicate (f.height.toNat * f.width.toNat) 0⟩
                      f.pixels (f.width.toNat * f.height.toNat) }) := by
                simp only [loadFromPGM]
                rw [if_neg h1, if_neg h2, if_neg h3, if_neg h4, hres,
                  Option.some_bind, if_neg h5]
              refine ⟨_, hload, Or.inl rfl, ?_,
                fun hcon => absurd hcon (fun hcon2 => hnotbad hcon2)⟩
              exact iff_of_true rfl ⟨f, rfl, hm, hw, hh, hmv, not_lt.mp h5⟩

/-- C7 counterexample: a header-valid 2x2 file whose stream holds a single
pixel byte makes loadFromPGM fail with -1, but the 1x1 target image has
already been resized to 2x2 and partially overwritten: the failed load did
corrupt the in-memory image. -/
theorem loadFromPGM_short_read_corrupts :
    loadFromPGM ⟨1, 1, [7]⟩ (some ⟨"P5", 2, 2, 255, [9]⟩) =
      some (-1, ⟨2, 2, [9, 0, 0, 0]⟩) ∧
    (⟨2, 2, [9, 0, 0, 0]⟩ : Image) ≠ ⟨1, 1, [7]⟩ :=
  ⟨by decide, by decide⟩

theorem loadFromPGM_characterization_witness :
    ∃ r, loadFromPGM testImg (some ⟨"P5", 1, 1, 255, [5]⟩) = some r ∧
      (r.1 = 0 ∨ r.1 = -1) ∧
      (r.1 = 0 ↔ ∃ f, some (⟨"P5", 1, 1, 255, [5]⟩ : PGMFile) = some f ∧
        f.magic = "P5" ∧ 0 < f.width ∧ 0 < f.height ∧ f.maxValue = 255 ∧
        f.width.toNat * f.height.toNat ≤ f.pixels.length) ∧
      ((some (⟨"P5", 1, 1, 255, [5]⟩ : PGMFile) = none ∨
        ∃ f, some (⟨"P5", 1, 1, 255, [5]⟩ : PGMFile) = some f ∧
          (f.magic ≠ "P5" ∨ f.width ≤ 0 ∨ f.height ≤ 0 ∨ f.maxValue ≠ 255)) →
        r.2 = testImg) :=
  loadFromPGM_characterization testImg (some ⟨"P5", 1, 1, 255, [5]⟩)

theorem coords_length (img : Image) :
    img.coords.length = img.height * img.width := by
  rw [Image.coords, List.length_map, List.length_range]

theorem mem_coords (img : Image) (p : Nat × Nat) :
    p ∈ img.coords ↔ p.1 < img.height ∧ p.2 < img.width := by
  obtain ⟨y, x⟩ := p
  constructor
  · intro hp
    rw [Image.coords, List.mem_map] at hp
    obtain ⟨i, hi, he⟩ := hp
    rw [List.mem_range] at hi
    have hW : 0 < img.width := by
      rcases Nat.eq_zero_or_pos img.width with h | h
      · rw [h, Nat.mul_zero] at hi
        omega
      · exact h
    have e1 : i / img.width = y := congrArg Prod.fst he
    have e2 : i % img.width = x := congrArg Prod.snd he
    constructor
    · rw [← e1]
      exact (Nat.div_lt_iff_lt_mul hW).mpr hi
    · rw [← e2]
      exact Nat.mod_lt _ hW
  · rintro ⟨hy, hx⟩
    have hW : 0 < img.width := by omega
    rw [Image.coords, List.mem_map]
    refine ⟨y * img.width + x, List.mem_range.mpr (flat_index_lt hy hx), ?_⟩
    have hdiv : (y * img.width + x) / img.width = y := by
      rw [Nat.add_comm, Nat.mul_comm, Nat.add_mul_div_left _ _ hW,
        Nat.div_eq_of_lt hx, Nat.zero_add]
    have hmod : (y * img.width + x) % img.width = x := by
      rw [Nat.add_comm, Nat.mul_comm, Nat.add_mul_mod_self_left,
        Nat.mod_eq_of_lt hx]
    rw [hdiv, hmod]

theorem mem_bgStep (img : Image) (s : List (Nat × Nat)) (p : Nat × Nat) :
    p ∈ bgStep img s ↔
      (p.1 < img.height ∧ p.2 < img.width) ∧ img.get p.1 p.2 = 0 ∧
        (onBorder img p = true ∨ p ∈ s ∨ ∃ q ∈ s, adj p q = true) := by
  rw [bgStep, List.mem_filter, mem_coords]
  constructor
  · rintro ⟨hin, hpred⟩
    simp only [Bool.and_eq_true, beq_iff_eq, Bool.or_eq_true,
      decide_eq_true_eq, List.any_eq_true] at hpred
    refine ⟨hin, hpred.1, ?_⟩
    tauto
  · rintro ⟨hin, hz, hrest⟩
    refine ⟨hin, ?_⟩
    simp only [Bool.and_eq_true, beq_iff_eq, Bool.or_eq_true,
      decide_eq_true_eq, List.any_eq_true]
    refine ⟨hz, ?_⟩
    tauto

theorem bgStep_mono (img : Image) {s t : List (Nat × Nat)}
    (hst : ∀ p ∈ s, p ∈ t) : ∀ p ∈ bgStep img s, p ∈ bgStep img t := by
  intro p hp
  rw [mem_bgStep] at hp ⊢
  refine ⟨hp.1, hp.2.1, ?_⟩
  rcases hp.2.2 with h | h | ⟨q, hq, ha⟩
  · exact Or.inl h
  · exact Or.inr (Or.inl (hst _ h))
  · exact Or.inr (Or.inr ⟨q, hst _ hq, ha⟩)

theorem bgStep_sublist (img : Image) {s t : List (Nat × Nat)}
    (hst : ∀ p ∈ s, p ∈ t) : (bgStep img s).Sublist (bgStep img t) := by
  apply List.monotone_filter_right
  intro p hp
  simp only [Bool.and_eq_true, beq_iff_eq, Bool.or_eq_true,
    decide_eq_true_eq, List.any_eq_true] at hp ⊢
  obtain ⟨hz, hor⟩ := hp
  refine ⟨hz, ?_⟩
  rcases hor with (h | h) | ⟨q, hq, ha⟩
  · exact Or.inl (Or.inl h)
  · exact Or.inl (Or.inr (hst _ h))
  · exact Or.inr ⟨q, hst _ hq, ha⟩

theorem bgIter_subset_succ (img : Image) :
    ∀ n, ∀ p ∈ bgIter img n, p ∈ bgIter img (n + 1) := by
  intro n
  induction n with
  | zero =>
    intro p hp
    cases hp
  | succ n ih => exact bgStep_mono img ih

theorem bgIter_subset_of_le (img : Image) {m n : Nat} (h : m ≤ n) :
    ∀ p ∈ bgIter img m, p ∈ bgIter img n := by
  induction h with
  | refl => exact fun p hp => hp
  | step h2 ih => exact fun p hp => bgIter_subset_succ img _ p (ih p hp)

theorem bgIter_eq_of_fix (img : Image) {k : Nat}
    (hfix : bgIter img (k + 1) = bgIter img k) :
    ∀ m, k ≤ m → bgIter img m = bgIter img k := by
  intro m hm
  induction hm with
  | refl => rfl
  | step h2 ih =>
    rename_i n
    calc bgIter img (n + 1) = bgStep img (bgIter img n) := rfl
      _ = bgStep img (bgIter img k) := by rw [ih]
      _ = bgIter img (k + 1) := rfl
      _ = bgIter img k := hfix

theorem bgIter_length_le (img : Image) (n : Nat) :
    (bgIter img (n + 1)).length ≤ img.height * img.width := by
  have h1 : (bgIter img (n + 1)).Sublist img.coords := List.filter_sublist _
  have h2 := h1.length_le
  rw [coords_length] at h2
  exact h2

theorem bgIter_exists_fix (img : Image) :
    ∃ k, k ≤ img.height * img.width ∧ bgIter img (k + 1) = bgIter img k := by
  by_contra hcon
  push_neg at hcon
  have hlen : ∀ k, k ≤ img.height * img.width + 1 →
      k ≤ (bgIter img k).length := by
    intro k
    induction k with
    | zero => exact fun _ => Nat.zero_le _
    | succ k ih =>
      intro hk
      have hsub : (bgIter img k).Sublist (bgIter img (k + 1)) := by
        cases k with
        | zero => exact List.nil_sublist _
        | succ k0 => exact bgStep_sublist img (bgIter_subset_succ img k0)
      have hne : bgIter img (k + 1) ≠ bgIter img k := hcon k (by omega)
      have hle := hsub.length_le
      have hlt : (bgIter img k).length < (bgIter img (k + 1)).length := by
        rcases Nat.lt_or_ge (bgIter img k).length (bgIter img (k + 1)).length
          with h | h
        · exact h
        · exact absurd (hsub.eq_of_length (by omega)).symm hne
      have := ih (by omega)
      omega
  have h1 := hlen (img.height * img.width + 1) (Nat.le_refl _)
  have h2 := bgIter_length_le img (img.height * img.width)
  omega

theorem bgIter_subset_reach (img : Image) :
    ∀ m, ∀ p ∈ bgIter img m, p ∈ bgReach img := by
  obtain ⟨k, hk, hfix⟩ := bgIter_exists_fix img
  intro m p hp
  rcases Nat.le_total m (img.height * img.width + 1) with h | h
  · exact bgIter_subset_of_le img h p hp
  · have e1 : bgIter img m = bgIter img k :=
      bgIter_eq_of_fix img hfix m (by omega)
    have e2 : bgIter img (img.height * img.width + 1) = bgIter img k :=
      bgIter_eq_of_fix img hfix _ (by omega)
    rw [bgReach, e2, ← e1]
    exact hp

theorem bgIter_sound (img : Image) :
    ∀ n p, p ∈ bgIter img n →
      img.get p.1 p.2 = 0 ∧ ZeroPathToBorder img p := by
  intro n
  induction n with
  | zero =>
    intro p hp
    cases hp
  | succ n ih =>
    intro p hp
    rw [show bgIter img (n + 1) = bgStep img (bgIter img n) from rfl,
      mem_bgStep] at hp
    obtain ⟨⟨hy, hx⟩, hz, hrest⟩ := hp
    refine ⟨hz, ?_⟩
    rcases hrest with hb | hmem | ⟨q, hq, ha⟩
    · exact ZeroPathToBorder.base p hy hx hb hz
    · exact (ih p hmem).2
    · exact ZeroPathToBorder.step p q (ih q hq).2 ha hy hx hz

theorem bgIter_complete (img : Image) (p : Nat × Nat)
    (h : ZeroPathToBorder img p) : ∃ n, p ∈ bgIter img n := by
  induction h with
  | base p hy hx hb hz =>
    refine ⟨1, ?_⟩
    rw [show bgIter img 1 = bgStep img [] from rfl, mem_bgStep]
    exact ⟨⟨hy, hx⟩, hz, Or.inl hb⟩
  | step p q hq ha hy hx hz ih =>
    obtain ⟨n, hn⟩ := ih
    refine ⟨n + 1, ?_⟩
    rw [show bgIter img (n + 1) = bgStep img (bgIter img n) from rfl,
      mem_bgStep]
    exact ⟨⟨hy, hx⟩, hz, Or.inr (Or.inr ⟨q, hn, ha⟩)⟩

theorem mem_bgReach_iff (img : Image) (p : Nat × Nat) :
    p ∈ bgReach img ↔ img.get p.1 p.2 = 0 ∧ ZeroPathToBorder img p := by
  constructor
  · intro hp
    exact bgIter_sound img _ p hp
  · rintro ⟨hz, hpath⟩
    obtain ⟨n, hn⟩ := bgIter_complete img p hpath
    exact bgIter_subset_reach img n p hn

theorem binaryBackground_get (img : Image) (y x : Nat)
    (hy : y < img.height) (hx : x < img.width) :
    (binaryBackground img).get y x =
      if (y, x) ∈ bgReach img then 255 else 0 := by
  have hW : 0 < img.width := by omega
  have hidx : y * img.width + x < img.height * img.width := flat_index_lt hy hx
  show ((List.range (img.height * img.width)).map
    (fun i => if (i / img.width, i % img.width) ∈ bgReach img then 255
      else 0)).getD (y * img.width + x) 0 = _
  have hlen : y * img.width + x < ((List.range (img.height * img.width)).map
      (fun i => if (i / img.width, i % img.width) ∈ bgReach img then 255
        else 0)).length := by
    rw [List.length_map, List.length_range]
    exact hidx
  rw [List.getD_eq_getElem?_getD, List.getElem?_eq_getElem hlen,
    Option.getD_some, List.getElem_map, List.getElem_range]
  have hdiv : (y * img.width + x) / img.width = y := by
    rw [Nat.add_comm, Nat.mul_comm, Nat.add_mul_div_left _ _ hW,
      Nat.div_eq_of_lt hx, Nat.zero_add]
  have hmod : (y * img.width + x) % img.width = x := by
    rw [Nat.add_comm, Nat.mul_comm, Nat.add_mul_mod_self_left,
      Nat.mod_eq_of_lt hx]
  rw [hdiv, hmod]

/-- C8 (spec-modelled): binaryBackground keeps the input dimensions, its
pixel at (y, x) is 255 exactly when the source pixel is 0 and a 4-connected
all-zero path joins (y, x) to the image border, and every other pixel is 0. -/
theorem binaryBackground_characterization (img : Image)
    (_hwf : img.wf) (_hbin : isBinary img = true) (y x : Nat)
    (hy : y < img.height) (hx : x < img.width) :
    ((binaryBackground img).height = img.height ∧
      (binaryBackground img).width = img.width) ∧
    ((binaryBackground img).get y x = 255 ↔
      (img.get y x = 0 ∧ ZeroPathToBorder img (y, x))) ∧
    ((binaryBackground img).get y x = 255 ∨
      (binaryBackground img).get y x = 0) := by
  have hg := binaryBackground_get img y x hy hx
  refine ⟨⟨rfl, rfl⟩, ?_, ?_⟩
  · rw [hg]
    by_cases hmem : (y, x) ∈ bgReach img
    · rw [if_pos hmem]
      exact iff_of_true rfl ((mem_bgReach_iff img (y, x)).mp hmem)
    · rw [if_neg hmem]
      constructor
      · intro h
        exact absurd h (by decide)
      · intro hcond
        exact absurd ((mem_bgReach_iff img (y, x)).mpr hcond) hmem
  · rw [hg]
    by_cases hmem : (y, x) ∈ bgReach img
    · rw [if_pos hmem]
      exact Or.inl rfl
    · rw [if_neg hmem]
      exact Or.inr rfl

theorem binaryBackground_characterization_witness :
    (testImg.wf ∧ isBinary testImg = true ∧
      (0 : Nat) < testImg.height ∧ (1 : Nat) < testImg.width) ∧
    (((binaryBackground testImg).height = testImg.height ∧
      (binaryBackground testImg).width = testImg.width) ∧
    ((binaryBackground testImg).get 0 1 = 255 ↔
      (testImg.get 0 1 = 0 ∧ ZeroPathToBorder testImg (0, 1))) ∧
    ((binaryBackground testImg).get 0 1 = 255 ∨
      (binaryBackground testImg).get 0 1 = 0)) :=
  ⟨⟨by decide, by decide, by decide, by decide⟩,
    binaryBackground_characterization testImg (by decide) (by decide) 0 1
      (by decide) (by decide)⟩

/-
Regression checks of the embedding against the test cases of the source
file (each mirrors one require/TEST_CASE of main.cpp).
-/

example : mkImageLit 3 3 ("xoxxoxxxx".toList) = some testImg := by decide
example : translateCopy testImg 0 1 = mkImageLit 3 3 ("oxooxooxx".toList) := by decide
example : translateCopy testImg 1 0 = mkImageLit 3 3 ("oooxoxxox".toList) := by decide
example : translateCopy testImg 1 1 = mkImageLit 3 3 ("ooooxooxo".toList) := by decide
example : translateCopy testImg 0 (-1) = mkImageLit 3 3 ("oxooxoxxo".toList) := by decide
example : translateCopy testImg (-1) (-1) = mkImageLit 3 3 ("oxoxxoooo".toList) := by decide
example : translateCopy testImg 0 10 = mkImageLit 3 3 ("ooooooooo".toList) := by decide
example : translateCopy testImg 10 0 = mkImageLit 3 3 ("ooooooooo".toList) := by decide
example : some (testImg.translateInplace 0 (-1)) = mkImageLit 3 3 ("oxooxoxxo".toList) := by decide
example : some (testImg.translateInplace 0 (-2)) = mkImageLit 3 3 ("xooxooxoo".toList) := by decide
example : some (testImg.translateInplace (-2) 0) = mkImageLit 3 3 ("xxxoooooo".toList) := by decide
example : some (testImg.translateInplace (-2) (-2)) = mkImageLit 3 3 ("xoooooooo".toList) := by decide
example : some (testImg.translateInplace 1 0) = mkImageLit 3 3 ("oooxoxxox".toList) := by decide
example : some (testImg.translateInplace 0 1) = mkImageLit 3 3 ("oxooxooxx".toList) := by decide
example : some (testImg.translateInplace 1 1) = mkImageLit 3 3 ("ooooxooxo".toList) := by decide
example : some (testImg.translateInplace 2 2) = mkImageLit 3 3 ("oooooooox".toList) := by decide
example : isBinary testImg = true := by decide
example : isBinary emptyImage = false := by decide
example : threshold testImg 10 = some testImg := by decide
